import Mathlib

/-!
Verification development for the BERNAISE post-processing tool
(`postprocess.py`, `analysis_scripts/flux_in_time.py`).

The Python source is shallowly embedded: coordinates become lists of
rationals, Python dicts become association lists with overwrite-on-insert
semantics, numpy arrays become lists (or `Nat → ℚ` maps for the
zero-initialised accumulator arrays of `geometry_in_time`), and fallible
operations (KeyError / IndexError / ValueError) return `Except`.
-/

namespace Bernaise

/-- A node / degree-of-freedom coordinate: the Python code passes
coordinates around as lists (rows of numpy arrays). -/
abbrev Coord := List ℚ

/-- `prep(x_list)` from `postprocess.py`: turns a coordinate list into a
dict key via `tuple(x_list)`.  In the embedding tuples and lists coincide,
so this is the identity on the list of coordinates (the commented-out
rounding in the source is dead code and not modelled). -/
def prep (x : Coord) : Coord := x

/-- Python-dict insertion on an association list: an existing key keeps
its position and gets the new value, a new key is appended at the end. -/
def dinsert {α β : Type} [DecidableEq α] : List (α × β) → α → β → List (α × β)
  | [], k, v => [(k, v)]
  | (k0, v0) :: rest, k, v =>
      if k = k0 then (k0, v) :: rest else (k0, v0) :: dinsert rest k v

/-- Python-dict lookup on an association list (`d[k]`, as `Option`). -/
def dlookup {α β : Type} [DecidableEq α] : List (α × β) → α → Option β
  | [], _ => none
  | (k0, v0) :: rest, k => if k = k0 then some v0 else dlookup rest k

theorem dlookup_dinsert {α β : Type} [DecidableEq α]
    (d : List (α × β)) (k : α) (v : β) (c : α) :
    dlookup (dinsert d k v) c = if c = k then some v else dlookup d c := by
  induction d with
  | nil =>
    simp only [dinsert, dlookup]
  | cons p rest ih =>
    obtain ⟨k0, v0⟩ := p
    simp only [dinsert]
    by_cases hk : k = k0
    · subst hk
      simp only [if_pos rfl, dlookup]
      by_cases hc : c = k <;> simp [hc]
    · rw [if_neg hk]
      simp only [dlookup]
      by_cases hc : c = k0
      · subst hc
        rw [if_pos rfl, if_pos rfl, if_neg]
        intro h
        exact hk h.symm
      · rw [if_neg hc, if_neg hc, ih]

/-- `TimeSeries._make_xdict` (rank-0 part): the coordinate index built by
the dict comprehension `dict((prep(x), i) for i, x in enumerate(nodes))`. -/
def makeXdict (nodes : List Coord) : List (Coord × Nat) :=
  nodes.enum.foldl (fun d p => dinsert d (prep p.2) p.1) []

/-- Auxiliary invariant: every binding `(c, i)` produced by folding
`dinsert` over index/coordinate pairs drawn from `nodes.enum` points back
into `nodes`. -/
theorem foldl_dinsert_good (nodes : List Coord) :
    ∀ (l : List (Nat × Coord)) (d : List (Coord × Nat)),
      (∀ p ∈ l, nodes[p.1]? = some p.2) →
      (∀ c i, dlookup d c = some i → nodes[i]? = some c) →
      (∀ c i, dlookup (l.foldl (fun d p => dinsert d (prep p.2) p.1) d) c
        = some i → nodes[i]? = some c) := by
  intro l
  induction l with
  | nil => intro d _ hd; exact hd
  | cons p rest ih =>
    intro d hl hd c i
    simp only [List.foldl_cons]
    apply ih
    · intro q hq; exact hl q (List.mem_cons_of_mem p hq)
    · intro c' i' hlook
      rw [dlookup_dinsert] at hlook
      by_cases hc : c' = prep p.2
      · rw [if_pos hc] at hlook
        obtain rfl : p.1 = i' := Option.some.inj hlook
        rw [hc]
        exact hl p (List.mem_cons_self p rest)
      · rw [if_neg hc] at hlook
        exact hd c' i' hlook

/-- Soundness of the coordinate index: a successful lookup returns the
index of a node that carries exactly the queried coordinate. -/
theorem makeXdict_sound (nodes : List Coord) (c : Coord) (i : Nat)
    (h : dlookup (makeXdict nodes) c = some i) : nodes[i]? = some c := by
  refine foldl_dinsert_good nodes nodes.enum [] ?_ ?_ c i h
  · intro p hp
    exact (List.mk_mem_enum_iff_getElem? (l := nodes)).1 hp
  · intro c' i' hlook
    simp [dlookup] at hlook

/-- A successful coordinate-index lookup lands inside the node array. -/
theorem makeXdict_lt (nodes : List Coord) (c : Coord) (i : Nat)
    (h : dlookup (makeXdict nodes) c = some i) : i < nodes.length := by
  have hs := makeXdict_sound nodes c i h
  exact (List.getElem?_eq_some.1 hs).1

/-- An MPI broadcast from the coordinating rank: every rank receives the
root's value verbatim (`comm.bcast(xdict, root=0)`). -/
def bcast {α : Type} (rootVal : α) : Nat → α := fun _rank => rootVal

/-- The pre-broadcast local value of `xdict` on each rank: rank 0 builds
the index from `nodes`, every other rank holds `None`. -/
def localXdict (nodes : List Coord) (rank : Nat) : Option (List (Coord × Nat)) :=
  if rank = 0 then some (makeXdict nodes) else none

/-- `TimeSeries._make_xdict`, whole-program view: the broadcast replaces
each rank's local value with rank 0's (`comm.bcast(xdict, root=0)`);
since rank 0's local value is always the built dict, the `None` default
is unreachable. -/
def makeXdictOnRank (nodes : List Coord) (rank : Nat) : List (Coord × Nat) :=
  (bcast (localXdict nodes 0) rank).getD []

/-- Python exception kinds raised by the embedded fragments. -/
inductive PErr where
  | keyError
  | indexError
  | valueError
deriving DecidableEq

/-- Elementwise evaluation of a Python list comprehension whose body may
raise: the first exception aborts the whole comprehension. -/
def mapE {α β : Type} (g : α → Except PErr β) : List α → Except PErr (List β)
  | [] => Except.ok []
  | a :: rest =>
      match g a with
      | Except.ok b =>
          match mapE g rest with
          | Except.ok bs => Except.ok (b :: bs)
          | Except.error e => Except.error e
      | Except.error e => Except.error e

theorem mapE_ok_length {α β : Type} (g : α → Except PErr β) :
    ∀ (l : List α) (vals : List β), mapE g l = Except.ok vals →
      vals.length = l.length := by
  intro l
  induction l with
  | nil =>
    intro vals h
    simp only [mapE] at h
    cases h
    rfl
  | cons a rest ih =>
    intro vals h
    simp only [mapE] at h
    cases hga : g a with
    | ok b =>
      rw [hga] at h
      cases hrest : mapE g rest with
      | ok bs =>
        rw [hrest] at h
        cases h
        simp [ih bs hrest]
      | error e => rw [hrest] at h; cases h
    | error e => rw [hga] at h; cases h

theorem mapE_ok_get {α β : Type} (g : α → Except PErr β) :
    ∀ (l : List α) (vals : List β), mapE g l = Except.ok vals →
      ∀ (j : Nat) (a : α), l[j]? = some a →
        ∃ b, vals[j]? = some b ∧ g a = Except.ok b := by
  intro l
  induction l with
  | nil =>
    intro vals _ j a ha
    simp at ha
  | cons a0 rest ih =>
    intro vals h j a ha
    simp only [mapE] at h
    cases hga : g a0 with
    | ok b =>
      rw [hga] at h
      cases hrest : mapE g rest with
      | ok bs =>
        rw [hrest] at h
        cases h
        cases j with
        | zero =>
          simp only [List.getElem?_cons_zero] at ha ⊢
          cases ha
          exact ⟨b, rfl, hga⟩
        | succ j0 =>
          simp only [List.getElem?_cons_succ] at ha ⊢
          exact ih bs hrest j0 a ha
      | error e => rw [hrest] at h; cases h
    | error e => rw [hga] at h; cases h

theorem mapE_error_of_mem {α β : Type} (g : α → Except PErr β)
    (l : List α) (a : α) (ha : a ∈ l) (e : PErr)
    (hg : g a = Except.error e) : ∃ e2, mapE g l = Except.error e2 := by
  induction l with
  | nil => cases ha
  | cons a0 rest ih =>
    simp only [mapE]
    cases hga : g a0 with
    | ok b =>
      rcases List.mem_cons.1 ha with rfl | hmem
      · rw [hga] at hg; cases hg
      · rcases ih hmem with ⟨e2, he2⟩
        rw [he2]
        exact ⟨e2, rfl⟩
    | error e0 => exact ⟨e0, rfl⟩

/-- If every element evaluates to `ok` or `keyError` and at least one
raises `keyError`, the comprehension raises `keyError`. -/
theorem mapE_keyError {α β : Type} (g : α → Except PErr β) :
    ∀ (l : List α),
      (∀ a ∈ l, g a ≠ Except.error PErr.indexError ∧
        g a ≠ Except.error PErr.valueError) →
      (∃ a ∈ l, g a = Except.error PErr.keyError) →
      mapE g l = Except.error PErr.keyError := by
  intro l
  induction l with
  | nil =>
    intro _ hex
    rcases hex with ⟨a, ha, _⟩
    cases ha
  | cons a0 rest ih =>
    intro hall hex
    simp only [mapE]
    cases hga : g a0 with
    | ok b =>
      have hrest : ∃ a ∈ rest, g a = Except.error PErr.keyError := by
        rcases hex with ⟨a, ha, hge⟩
        rcases List.mem_cons.1 ha with rfl | hmem
        · rw [hga] at hge; cases hge
        · exact ⟨a, hmem, hge⟩
      rw [ih (fun a ha => hall a (List.mem_cons_of_mem a0 ha)) hrest]
    | error e0 =>
      have := hall a0 (List.mem_cons_self a0 rest)
      cases e0 with
      | keyError => rfl
      | indexError => exact absurd hga this.1
      | valueError => exact absurd hga this.2

/-- The body of the list comprehension in `TimeSeries.set_val`:
`f_data[self.xdict[prep(x_val)]]` — a missing coordinate raises
`KeyError`, an out-of-range node index raises `IndexError`. -/
def lookupVal (xdict : List (Coord × Nat)) (f_data : List ℚ) (xv : Coord) :
    Except PErr ℚ :=
  match dlookup xdict (prep xv) with
  | some i =>
      match f_data[i]? with
      | some v => Except.ok v
      | none => Except.error PErr.indexError
  | none => Except.error PErr.keyError

/-- `TimeSeries.set_val(f, f_data)`: builds the full replacement value
list from the snapshot (one entry per locally-owned dof coordinate in
`x`), then overwrites the whole local vector (`values[:] = [...]`;
numpy rejects a length mismatch, modelled as `ValueError`).  The prior
vector contents `fprior` only participate through their length. -/
def set_val (xdict : List (Coord × Nat)) (f_data : List ℚ)
    (x : List Coord) (fprior : List ℚ) : Except PErr (List ℚ) :=
  match mapE (lookupVal xdict f_data) x with
  | Except.ok vals =>
      if vals.length = fprior.length then Except.ok vals
      else Except.error PErr.valueError
  | Except.error e => Except.error e

/-- The comprehension body of `set_val` when `f_data` is the raw
two-dimensional `(N, 1)` snapshot that the scalar branch of `update`
passes (every stored snapshot is 2-d: the consumers at
`ts["phi", step][:, 0]` and `u_data = ...[:, :self.dim]` all slice it):
`f_data[self.xdict[prep(x_val)]]` then yields a whole row. -/
def lookupRow (xdict : List (Coord × Nat)) (f_data : List (List ℚ))
    (xv : Coord) : Except PErr (List ℚ) :=
  match dlookup xdict (prep xv) with
  | some i =>
      match f_data[i]? with
      | some row => Except.ok row
      | none => Except.error PErr.indexError
  | none => Except.error PErr.keyError

/-- `TimeSeries.set_val(f, f_data)` applied to a 2-d `f_data`: the
comprehension collects rows, so `values[:] = [...]` attempts to broadcast
a 2-d `(len(x), 1)` array into the flat local vector and numpy raises
`ValueError` (an empty row list only assigns into an empty vector). -/
def set_val_2d (xdict : List (Coord × Nat)) (f_data : List (List ℚ))
    (x : List Coord) (fprior : List ℚ) : Except PErr (List ℚ) :=
  match mapE (lookupRow xdict f_data) x with
  | Except.ok rows =>
      if rows = [] ∧ fprior = [] then Except.ok []
      else Except.error PErr.valueError
  | Except.error e => Except.error e

/-- `TimeSeries.update(f, field, step)`, branch `field != "u"`:
`f_data = self.datasets[field][step][:]` — the full slice keeps the
stored snapshot's 2-d `(N, 1)` shape (this branch has no `[:, 0]`,
unlike the `u` branch and every other consumer) — then
`set_val(f, f_data)`. -/
def update_scalar (datasets : List (String × List (List (List ℚ))))
    (field : String) (step : Nat) (xdict : List (Coord × Nat))
    (x : List Coord) (fprior : List ℚ) : Except PErr (List ℚ) :=
  match dlookup datasets field with
  | some snaps =>
      match snaps[step]? with
      | some snap => set_val_2d xdict snap x fprior
      | none => Except.error PErr.indexError
  | none => Except.error PErr.keyError

/-- Column `d` of an interleaved per-node vector snapshot
(`u_data[:, d]`). -/
def column (snap : List (List ℚ)) (d : Nat) : Except PErr (List ℚ) :=
  mapE (fun row =>
    match row[d]? with
    | some v => Except.ok v
    | none => Except.error PErr.indexError) snap

/-- `TimeSeries.update(f, field, step)`, branch `field == "u"`: each
spatial component `d < dim` is extracted from the snapshot
(`u_data[:, d]`), written into the dummy function via `set_val`, and
assigned to sub-function `d`; the result is the per-component list of
dof vectors. -/
def update_u (usnaps : List (List (List ℚ))) (step : Nat) (dim : Nat)
    (xdict : List (Coord × Nat)) (x : List Coord) (dummy : List ℚ) :
    Except PErr (List (List ℚ)) :=
  match usnaps[step]? with
  | some snap =>
      mapE (fun d =>
        match column snap d with
        | Except.ok col => set_val xdict col x dummy
        | Except.error e => Except.error e) (List.range dim)
  | none => Except.error PErr.indexError

theorem set_val_ok_elim (xdict : List (Coord × Nat)) (fd : List ℚ)
    (x : List Coord) (fp vals : List ℚ)
    (h : set_val xdict fd x fp = Except.ok vals) :
    mapE (lookupVal xdict fd) x = Except.ok vals ∧ vals.length = fp.length := by
  cases hm : mapE (lookupVal xdict fd) x with
  | ok vs =>
    simp only [set_val, hm] at h
    by_cases hl : vs.length = fp.length
    · rw [if_pos hl] at h
      cases h
      exact ⟨rfl, hl⟩
    · rw [if_neg hl] at h
      cases h
  | error e =>
    simp only [set_val, hm] at h
    cases h

theorem set_val_ok_intro (xdict : List (Coord × Nat)) (fd : List ℚ)
    (x : List Coord) (fp vals : List ℚ)
    (hm : mapE (lookupVal xdict fd) x = Except.ok vals)
    (hl : vals.length = fp.length) :
    set_val xdict fd x fp = Except.ok vals := by
  simp only [set_val, hm, if_pos hl]

theorem lookupVal_ok_elim (xdict : List (Coord × Nat)) (fd : List ℚ)
    (xv : Coord) (v : ℚ) (h : lookupVal xdict fd xv = Except.ok v) :
    ∃ i, dlookup xdict (prep xv) = some i ∧ fd[i]? = some v := by
  cases hd : dlookup xdict (prep xv) with
  | some i =>
    cases hv : fd[i]? with
    | some v0 =>
      simp only [lookupVal, hd, hv] at h
      cases h
      exact ⟨i, rfl, hv⟩
    | none =>
      simp only [lookupVal, hd, hv] at h
      cases h
  | none =>
    simp only [lookupVal, hd] at h
    cases h

theorem update_scalar_eq (datasets : List (String × List (List (List ℚ))))
    (field : String) (step : Nat) (xdict : List (Coord × Nat))
    (x : List Coord) (fp : List ℚ) (snaps : List (List (List ℚ)))
    (snap : List (List ℚ))
    (hfield : dlookup datasets field = some snaps)
    (hstep : snaps[step]? = some snap) :
    update_scalar datasets field step xdict x fp
      = set_val_2d xdict snap x fp := by
  simp only [update_scalar, hfield, hstep]

theorem mapE_ok_of_forall {α β : Type} (g : α → Except PErr β) :
    ∀ l : List α, (∀ a ∈ l, ∃ b, g a = Except.ok b) →
      ∃ bs, mapE g l = Except.ok bs := by
  intro l
  induction l with
  | nil => intro _; exact ⟨[], rfl⟩
  | cons a rest ih =>
    intro hall
    rcases hall a (List.mem_cons_self a rest) with ⟨b, hb⟩
    rcases ih (fun a2 ha2 => hall a2 (List.mem_cons_of_mem a ha2)) with
      ⟨bs, hbs⟩
    refine ⟨b :: bs, ?_⟩
    simp only [mapE, hb, hbs]

theorem column_ok_elim (snap : List (List ℚ)) (d : Nat) (col : List ℚ)
    (h : column snap d = Except.ok col) :
    col.length = snap.length ∧
      ∀ (i : Nat) (v : ℚ), col[i]? = some v →
        ∃ row : List ℚ, snap[i]? = some row ∧ row[d]? = some v := by
  have hlen := mapE_ok_length _ _ _ h
  refine ⟨hlen, ?_⟩
  intro i v hv
  have hi : i < snap.length := by
    rw [← hlen]
    exact (List.getElem?_eq_some.1 hv).1
  have hrow : snap[i]? = some snap[i] := List.getElem?_eq_some.2 ⟨hi, rfl⟩
  rcases mapE_ok_get _ _ _ h i _ hrow with ⟨b, hb, hg⟩
  refine ⟨snap[i], hrow, ?_⟩
  have hvb : v = b := by
    rw [hv] at hb
    exact Option.some.inj hb
  subst hvb
  cases hgd : (snap[i])[d]? with
  | some w =>
    simp only [hgd] at hg
    cases hg
    rfl
  | none =>
    simp only [hgd] at hg
    cases hg

/-- Claim C2 (code bug): the claimed guarantee — after
`update(f, field, step)` every locally-owned dof holds the snapshot value
for its coordinate — fails for every scalar field: the stored snapshots
are 2-d `(N, 1)` arrays, the scalar branch takes the full slice without a
`[:, 0]`, so the comprehension yields rows and `values[:] = [...]` raises
a broadcast `ValueError` instead of representing the step (first and
second conjuncts).  The `u` branch, which does extract 1-d component
columns, delivers exactly the claimed values (third conjunct), showing
the scalar branch is the slip. -/
theorem claim_C2_scalar_update_broadcast_error
    (nodes : List Coord) (datasets : List (String × List (List (List ℚ))))
    (field : String) (step : Nat) (x : List Coord) (fprior : List ℚ)
    (snaps : List (List (List ℚ))) (snap : List (List ℚ))
    (hfield : dlookup datasets field = some snaps)
    (hstep : snaps[step]? = some snap)
    (hne : x ≠ [] ∨ fprior ≠ []) :
    (∀ vals, update_scalar datasets field step (makeXdict nodes) x fprior
      ≠ Except.ok vals)
    ∧ ((∀ xv ∈ x, ∃ i, dlookup (makeXdict nodes) (prep xv) = some i ∧
          i < snap.length) →
        update_scalar datasets field step (makeXdict nodes) x fprior
          = Except.error PErr.valueError)
    ∧ (∀ (usnaps : List (List (List ℚ))) (ustep dim : Nat)
        (usnap : List (List ℚ)) (dummy : List ℚ) (comps : List (List ℚ)),
        usnaps[ustep]? = some usnap →
        update_u usnaps ustep dim (makeXdict nodes) x dummy = Except.ok comps →
        ∀ (d : Nat) (cvals : List ℚ), comps[d]? = some cvals →
          ∀ (j : Nat) (xj : Coord), x[j]? = some xj →
            ∃ (i : Nat) (row : List ℚ), nodes[i]? = some xj ∧
              usnap[i]? = some row ∧ cvals[j]? = row[d]?) := by
  rw [update_scalar_eq datasets field step _ x fprior snaps snap hfield hstep]
  refine ⟨?_, ?_, ?_⟩
  · intro vals hok
    cases hmap : mapE (lookupRow (makeXdict nodes) snap) x with
    | ok rows =>
      simp only [set_val_2d, hmap] at hok
      by_cases hcond : rows = [] ∧ fprior = []
      · have hxnil : x = [] := by
          have hlen := mapE_ok_length _ _ _ hmap
          rw [hcond.1] at hlen
          exact List.eq_nil_of_length_eq_zero hlen.symm
        rcases hne with hne | hne
        · exact hne hxnil
        · exact hne hcond.2
      · rw [if_neg hcond] at hok
        cases hok
    | error e =>
      simp only [set_val_2d, hmap] at hok
      cases hok
  · intro hfound
    have hallok : ∀ xv ∈ x, ∃ row,
        lookupRow (makeXdict nodes) snap xv = Except.ok row := by
      intro xv hxv
      rcases hfound xv hxv with ⟨i, hdl, hilt⟩
      have hrow : snap[i]? = some snap[i] := List.getElem?_eq_some.2 ⟨hilt, rfl⟩
      exact ⟨snap[i], by simp only [lookupRow, hdl, hrow]⟩
    rcases mapE_ok_of_forall _ x hallok with ⟨rows, hrows⟩
    simp only [set_val_2d, hrows]
    have hcond : ¬(rows = [] ∧ fprior = []) := by
      intro hcon
      have hxnil : x = [] := by
        have hlen := mapE_ok_length _ _ _ hrows
        rw [hcon.1] at hlen
        exact List.eq_nil_of_length_eq_zero hlen.symm
      rcases hne with hne | hne
      · exact hne hxnil
      · exact hne hcon.2
    rw [if_neg hcond]
  · intro usnaps ustep dim usnap dummy comps husnap hu d cvals hcvals j xj hxj
    simp only [update_u, husnap] at hu
    have hcomps := mapE_ok_length _ _ _ hu
    have hd : d < dim := by
      have := (List.getElem?_eq_some.1 hcvals).1
      rw [hcomps, List.length_range] at this
      exact this
    have hdrange : (List.range dim)[d]? = some d := by
      simp [List.getElem?_range, hd]
    rcases mapE_ok_get _ _ _ hu d d hdrange with ⟨b, hb, hgd⟩
    have hbc : b = cvals := by
      rw [hcvals] at hb
      exact (Option.some.inj hb).symm
    subst hbc
    cases hcol : column usnap d with
    | ok col =>
      simp only [hcol] at hgd
      rcases set_val_ok_elim _ _ _ _ _ hgd with ⟨hmap2, _⟩
      rcases mapE_ok_get _ _ _ hmap2 j xj hxj with ⟨v, hvj, hlook⟩
      rcases lookupVal_ok_elim _ _ _ _ hlook with ⟨i, hdl, hcoli⟩
      rcases column_ok_elim usnap d col hcol with ⟨_, hcolget⟩
      rcases hcolget i v hcoli with ⟨row, hrow, hrowd⟩
      exact ⟨i, row, makeXdict_sound nodes (prep xj) i hdl, hrow, by
        rw [hvj, hrowd]⟩
    | error e =>
      simp only [hcol] at hgd
      cases hgd

/-- Witness for C2 at the failing input: a two-node mesh whose field
"phi" stores the `(2, 1)` snapshot `[[10], [20]]`; updating the scalar
function raises the broadcast `ValueError` although every dof coordinate
resolves in the index. -/
theorem claim_C2_scalar_update_broadcast_error_witness :
    update_scalar [("phi", [[[(10 : ℚ)], [(20 : ℚ)]]])] "phi" 0
        (makeXdict [[(0 : ℚ)], [(1 : ℚ)]]) [[(1 : ℚ)], [(0 : ℚ)]] [0, 0]
      = Except.error PErr.valueError :=
  (claim_C2_scalar_update_broadcast_error [[0], [1]]
    [("phi", [[[10], [20]]])] "phi" 0 [[1], [0]] [0, 0]
    [[[10], [20]]] [[10], [20]] rfl rfl
    (Or.inl (by decide))).2.1 (by
      intro xv hxv
      rcases List.mem_cons.1 hxv with rfl | hxv2
      · exact ⟨1, rfl, by decide⟩
      · rcases List.mem_cons.1 hxv2 with rfl | hxv3
        · exact ⟨0, rfl, by decide⟩
        · cases hxv3)

/-- Claim C3: the coordinate index is built once on rank 0 and broadcast
verbatim, so any two ranks querying it with the same coordinate tuple get
the same node index; lookups are exact (a hit returns the index of a node
carrying exactly the queried tuple). -/
theorem claim_C3_xdict_identical_across_ranks
    (nodes : List Coord) (r1 r2 : Nat) (key : Coord) :
    dlookup (makeXdictOnRank nodes r1) key
      = dlookup (makeXdictOnRank nodes r2) key
    ∧ makeXdictOnRank nodes r1 = makeXdict nodes
    ∧ (∀ i, dlookup (makeXdict nodes) key = some i → nodes[i]? = some key) := by
  refine ⟨rfl, rfl, ?_⟩
  intro i h
  exact makeXdict_sound nodes key i h

/-- Witness for C3 on a concrete two-node mesh and two distinct ranks. -/
theorem claim_C3_xdict_identical_across_ranks_witness :
    dlookup (makeXdictOnRank [[(0 : ℚ)], [(1 : ℚ)]] 0) [(1 : ℚ)]
      = dlookup (makeXdictOnRank [[(0 : ℚ)], [(1 : ℚ)]] 3) [(1 : ℚ)]
    ∧ makeXdictOnRank [[(0 : ℚ)], [(1 : ℚ)]] 0 = makeXdict [[(0 : ℚ)], [(1 : ℚ)]]
    ∧ (∀ i, dlookup (makeXdict [[(0 : ℚ)], [(1 : ℚ)]]) [(1 : ℚ)] = some i →
        ([[(0 : ℚ)], [(1 : ℚ)]] : List Coord)[i]? = some [(1 : ℚ)]) :=
  claim_C3_xdict_identical_across_ranks [[0], [1]] 0 3 [1]

/-- With the index built from `nodes` and a snapshot covering all nodes,
each dof lookup either succeeds or raises `KeyError` — `IndexError` is
impossible. -/
theorem lookupVal_no_indexError (nodes : List Coord) (fd : List ℚ)
    (hlen : nodes.length ≤ fd.length) (xv : Coord) :
    lookupVal (makeXdict nodes) fd xv ≠ Except.error PErr.indexError ∧
      lookupVal (makeXdict nodes) fd xv ≠ Except.error PErr.valueError := by
  cases hd : dlookup (makeXdict nodes) (prep xv) with
  | some i =>
    have hi : i < fd.length :=
      lt_of_lt_of_le (makeXdict_lt nodes (prep xv) i hd) hlen
    have hv : fd[i]? = some fd[i] := List.getElem?_eq_some.2 ⟨hi, rfl⟩
    simp only [lookupVal, hd, hv]
    refine ⟨fun h => ?_, fun h => ?_⟩ <;> cases h
  | none =>
    simp only [lookupVal, hd]
    refine ⟨fun h => ?_, fun h => ?_⟩
    · injection h with h2
      cases h2
    · injection h with h2
      cases h2

/-- Claim C7: a locally-owned dof whose coordinate is absent from the
coordinate index makes `set_val` abort with the lookup error (`KeyError`);
the update is never silently skipped and no dof is assigned a value. -/
theorem claim_C7_missing_coordinate_aborts
    (nodes : List Coord) (f_data : List ℚ) (x : List Coord) (fprior : List ℚ)
    (hlen : nodes.length ≤ f_data.length)
    (hmiss : ∃ xv ∈ x, dlookup (makeXdict nodes) (prep xv) = none) :
    set_val (makeXdict nodes) f_data x fprior = Except.error PErr.keyError
    ∧ ∀ vals, set_val (makeXdict nodes) f_data x fprior ≠ Except.ok vals := by
  rcases hmiss with ⟨xv, hxv, hnone⟩
  have hkey : lookupVal (makeXdict nodes) f_data xv = Except.error PErr.keyError := by
    unfold lookupVal
    rw [hnone]
  have hmap : mapE (lookupVal (makeXdict nodes) f_data) x
      = Except.error PErr.keyError := by
    apply mapE_keyError
    · intro a _
      exact lookupVal_no_indexError nodes f_data hlen a
    · exact ⟨xv, hxv, hkey⟩
  constructor
  · unfold set_val
    rw [hmap]
  · intro vals hcontra
    have := (set_val_ok_elim _ _ _ _ _ hcontra).1
    rw [hmap] at this
    cases this

/-- Witness for C7: the coordinate `[1]` is not a node of the one-node
mesh `[[0]]`, so the update aborts with `KeyError`. -/
theorem claim_C7_missing_coordinate_aborts_witness :
    set_val (makeXdict [[(0 : ℚ)]]) [(5 : ℚ)] [[(1 : ℚ)]] []
      = Except.error PErr.keyError
    ∧ ∀ vals, set_val (makeXdict [[(0 : ℚ)]]) [(5 : ℚ)] [[(1 : ℚ)]] []
      ≠ Except.ok vals :=
  claim_C7_missing_coordinate_aborts [[0]] [5] [[1]] []
    (by decide) ⟨[1], by decide, by decide⟩

theorem mem_of_getElemSome {α : Type} (l : List α) (i : Nat) (a : α)
    (h : l[i]? = some a) : a ∈ l := by
  rcases List.getElem?_eq_some.1 h with ⟨hi, rfl⟩
  exact List.getElem_mem hi

/-- The `for i in range(len(self.parameters)-1)` loop of
`TimeSeries.get_parameters` together with the trailing
`return self.parameters[-1][1]`: walks adjacent records, returns the first
record whose interval `(start_i, start_{i+1}]` contains `time`, and falls
through to the last record. -/
def gpAux {P : Type} (t : ℚ) : List (ℚ × P) → Option P
  | a :: b :: rest =>
      if a.1 < t ∧ t ≤ b.1 then some a.2 else gpAux t (b :: rest)
  | [a] => some a.2
  | [] => none

/-- `TimeSeries.get_parameters(time)`: the single-record shortcut, the
`time <= parameters[0][0]` head check, the adjacent-interval loop and the
final fallback to the last record (an empty record list would raise,
modelled as `none`). -/
def get_parameters {P : Type} (ps : List (ℚ × P)) (t : ℚ) : Option P :=
  match ps with
  | [] => none
  | [p] => some p.2
  | p :: q :: rest => if t ≤ p.1 then some p.2 else gpAux t (p :: q :: rest)

theorem gpAux_exists {P : Type} (t : ℚ) :
    ∀ l : List (ℚ × P), l ≠ [] → ∃ r, gpAux t l = some r := by
  intro l
  induction l with
  | nil => intro h; cases h rfl
  | cons a l0 ih =>
    intro _
    cases l0 with
    | nil => exact ⟨a.2, rfl⟩
    | cons b rest =>
      simp only [gpAux]
      by_cases hc : a.1 < t ∧ t ≤ b.1
      · rw [if_pos hc]; exact ⟨a.2, rfl⟩
      · rw [if_neg hc]
        exact ih (by simp)

theorem gpAux_last {P : Type} (t : ℚ) :
    ∀ (l : List (ℚ × P)) (plast : ℚ × P), l.getLast? = some plast →
      (∀ p ∈ l, p.1 < t) → gpAux t l = some plast.2 := by
  intro l
  induction l with
  | nil => intro plast h; cases h
  | cons a l0 ih =>
    intro plast hlast hall
    cases l0 with
    | nil =>
      simp only [List.getLast?_singleton] at hlast
      cases hlast
      rfl
    | cons b rest =>
      rw [List.getLast?_cons_cons] at hlast
      have hb : b.1 < t := hall b (by simp)
      have hc : ¬(a.1 < t ∧ t ≤ b.1) := by
        intro hcon
        exact absurd hcon.2 (not_le.2 hb)
      simp only [gpAux, if_neg hc]
      exact ih plast hlast (fun p hp => hall p (List.mem_cons_of_mem a hp))

theorem gpAux_mem {P : Type} (t : ℚ) :
    ∀ (l : List (ℚ × P)), List.Sorted (fun a b => a.1 ≤ b.1) l →
      ∀ (i : Nat) (a b : ℚ × P), l[i]? = some a → l[i+1]? = some b →
        a.1 < t → t ≤ b.1 → gpAux t l = some a.2 := by
  intro l
  induction l with
  | nil => intro _ i a b ha; simp at ha
  | cons a0 l0 ih =>
    intro hsort i a b ha hb hat htb
    cases l0 with
    | nil =>
      simp only [List.getElem?_cons_succ] at hb
      simp at hb
    | cons q rest =>
      cases i with
      | zero =>
        simp only [List.getElem?_cons_zero] at ha
        simp only [List.getElem?_cons_succ, List.getElem?_cons_zero] at hb
        cases ha
        cases hb
        simp only [gpAux, if_pos (And.intro hat htb)]
      | succ j =>
        rw [List.getElem?_cons_succ] at ha hb
        have hqa : q.1 ≤ a.1 := by
          cases j with
          | zero =>
            simp only [List.getElem?_cons_zero] at ha
            cases ha
            exact le_refl _
          | succ k =>
            simp only [List.getElem?_cons_succ] at ha
            have hmem : a ∈ rest := mem_of_getElemSome rest k a ha
            exact ((List.sorted_cons.1 (List.sorted_cons.1 hsort).2).1) a hmem
        have hc : ¬(a0.1 < t ∧ t ≤ q.1) := by
          intro hcon
          exact absurd (lt_of_le_of_lt (le_trans hcon.2 hqa) hat) (lt_irrefl t)
        simp only [gpAux, if_neg hc]
        exact ih (List.sorted_cons.1 hsort).2 j a b ha hb hat htb

/-- With a sorted record list, every element's time is bounded by the
last record's time. -/
theorem sorted_le_getLast {P : Type} :
    ∀ (l : List (ℚ × P)), List.Sorted (fun a b => a.1 ≤ b.1) l →
      ∀ plast, l.getLast? = some plast → ∀ p ∈ l, p.1 ≤ plast.1 := by
  intro l
  induction l with
  | nil => intro _ plast h; cases h
  | cons a l0 ih =>
    intro hsort plast hlast p hp
    cases l0 with
    | nil =>
      simp only [List.getLast?_singleton] at hlast
      cases hlast
      simp only [List.mem_singleton] at hp
      cases hp
      exact le_refl _
    | cons b rest =>
      rw [List.getLast?_cons_cons] at hlast
      have hlastmem : plast ∈ b :: rest := by
        have : (b :: rest) ≠ [] := by simp
        rcases List.getLast?_eq_getLast (b :: rest) this ▸ hlast with h2
        cases h2
        exact List.getLast_mem this
      rcases List.mem_cons.1 hp with rfl | hmem
      · exact (List.sorted_cons.1 hsort).1 plast hlastmem
      · exact ih (List.sorted_cons.1 hsort).2 plast hlast p hmem

/-- Claim C9: for a non-empty time-sorted record list, `get_parameters`
always returns exactly one record's parameters: the first when
`t <= start_0`, record `i` when `start_i < t <= start_{i+1}` (so at a
later checkpoint's exact start time the preceding record is returned),
and otherwise the last. -/
theorem claim_C9_get_parameters_selection {P : Type}
    (ps : List (ℚ × P)) (t : ℚ) (hne : ps ≠ [])
    (hsort : List.Sorted (fun a b => a.1 ≤ b.1) ps) :
    (∃ r, get_parameters ps t = some r)
    ∧ (∀ p0, ps.head? = some p0 → t ≤ p0.1 →
        get_parameters ps t = some p0.2)
    ∧ (∀ (i : Nat) (a b : ℚ × P), ps[i]? = some a → ps[i + 1]? = some b →
        a.1 < t → t ≤ b.1 → get_parameters ps t = some a.2)
    ∧ (∀ plast, ps.getLast? = some plast → plast.1 < t →
        get_parameters ps t = some plast.2) := by
  cases ps with
  | nil => cases hne rfl
  | cons p l0 =>
    cases l0 with
    | nil =>
      refine ⟨⟨p.2, rfl⟩, ?_, ?_, ?_⟩
      · intro p0 hp0 _
        simp only [List.head?_cons] at hp0
        cases hp0
        rfl
      · intro i a b _ hb
        cases i <;> simp at hb
      · intro plast hlast _
        simp only [List.getLast?_singleton] at hlast
        cases hlast
        rfl
    | cons q rest =>
      refine ⟨?_, ?_, ?_, ?_⟩
      · by_cases hp : t ≤ p.1
        · exact ⟨p.2, by simp only [get_parameters, if_pos hp]⟩
        · rcases gpAux_exists t (p :: q :: rest) (by simp) with ⟨r, hr⟩
          exact ⟨r, by simp only [get_parameters, if_neg hp]; exact hr⟩
      · intro p0 hp0 hle
        simp only [List.head?_cons] at hp0
        cases hp0
        simp only [get_parameters, if_pos hle]
      · intro i a b ha hb hat htb
        have hp : ¬ t ≤ p.1 := by
          have hpa : p.1 ≤ a.1 := by
            cases i with
            | zero =>
              simp only [List.getElem?_cons_zero] at ha
              cases ha
              exact le_refl _
            | succ k =>
              simp only [List.getElem?_cons_succ] at ha
              have hmem : a ∈ q :: rest :=
                mem_of_getElemSome (q :: rest) k a ha
              exact (List.sorted_cons.1 hsort).1 a hmem
          exact not_le.2 (lt_of_le_of_lt hpa hat)
        simp only [get_parameters, if_neg hp]
        exact gpAux_mem t (p :: q :: rest) hsort i a b ha hb hat htb
      · intro plast hlast hlt
        have hp : ¬ t ≤ p.1 := by
          have : p.1 ≤ plast.1 :=
            sorted_le_getLast (p :: q :: rest) hsort plast hlast p (by simp)
          exact not_le.2 (lt_of_le_of_lt this hlt)
        simp only [get_parameters, if_neg hp]
        refine gpAux_last t (p :: q :: rest) plast hlast ?_
        intro pp hpp
        exact lt_of_le_of_lt
          (sorted_le_getLast (p :: q :: rest) hsort plast hlast pp hpp) hlt

/-- Witness for C9 on three checkpoints starting at times 0, 1, 2 with a
query at the second checkpoint's exact start time `t = 1`: the first
checkpoint's parameters are returned. -/
theorem claim_C9_get_parameters_selection_witness :
    get_parameters [((0 : ℚ), "a"), ((1 : ℚ), "b"), ((2 : ℚ), "c")] 1
      = some "a" :=
  (claim_C9_get_parameters_selection
    [((0 : ℚ), "a"), ((1 : ℚ), "b"), ((2 : ℚ), "c")] 1 (by simp)
    (by norm_num [List.sorted_cons])).2.2.1 0 (0, "a") (1, "b")
    rfl rfl (by norm_num) (by norm_num)

/-- An element of a Python tuple used to index the time series. -/
inductive PyElem where
  | strE (s : String)
  | natE (n : Nat)
deriving DecidableEq

/-- A key passed to `TimeSeries.__getitem__`: either a bare string or a
tuple. -/
inductive TsKey where
  | strKey (s : String)
  | tupKey (es : List PyElem)
deriving DecidableEq

/-- Python `len(key)`: character count of a string, arity of a tuple. -/
def pyLen : TsKey → Nat
  | .strKey s => s.length
  | .tupKey es => es.length

/-- Result of an indexing operation: a whole field series, one snapshot,
or an escaped exception (KeyError / IndexError / TypeError). -/
inductive TsValue (α : Type) where
  | series (snaps : List α)
  | snap (s : α)
  | err
deriving DecidableEq

/-- `TimeSeries.__getitem__(key)`: `if len(key) == 1: return
self.datasets[key]`, `if len(key) == 2: return
self.datasets[key[0]][key[1]]`, and otherwise Python falls off the end of
the function and returns `None`.  A bare string key of length 1 is itself
the dict key; a bare string of length 2 indexes a dataset list with a
character and raises; a `(field, step)` tuple selects one snapshot. -/
def tsGetItem {α : Type} (datasets : List (String × List α)) (k : TsKey) :
    Option (TsValue α) :=
  if pyLen k = 1 then
    some (match k with
      | .strKey s =>
          match dlookup datasets s with
          | some v => TsValue.series v
          | none => TsValue.err
      | .tupKey _ => TsValue.err)
  else if pyLen k = 2 then
    some (match k with
      | .strKey _ => TsValue.err
      | .tupKey es =>
          match es with
          | [PyElem.strE f, PyElem.natE i] =>
              (match dlookup datasets f with
                | some snaps =>
                    (match snaps[i]? with
                      | some sn => TsValue.snap sn
                      | none => TsValue.err)
                | none => TsValue.err)
          | _ => TsValue.err)
  else none

/-- Claim C10: a key whose length is neither 1 nor 2 makes
`__getitem__` return `None` (so `ts["phi"]` is `None`), a whole series is
retrievable by bare key only for single-character field names, and a
`(field, step)` pair retrieves one snapshot. -/
theorem claim_C10_getitem_length_gate {α : Type}
    (datasets : List (String × List α)) (k : TsKey) :
    (pyLen k ≠ 1 → pyLen k ≠ 2 → tsGetItem datasets k = none)
    ∧ tsGetItem datasets (TsKey.strKey "phi") = none
    ∧ (∀ (s : String) (v : List α),
        tsGetItem datasets (TsKey.strKey s) = some (TsValue.series v) →
          s.length = 1)
    ∧ (∀ (f : String) (j : Nat) (snaps : List α) (sn : α),
        dlookup datasets f = some snaps → snaps[j]? = some sn →
          tsGetItem datasets (TsKey.tupKey [PyElem.strE f, PyElem.natE j])
            = some (TsValue.snap sn)) := by
  refine ⟨?_, ?_, ?_, ?_⟩
  · intro h1 h2
    unfold tsGetItem
    rw [if_neg h1, if_neg h2]
  · unfold tsGetItem
    rw [if_neg (by decide), if_neg (by decide)]
  · intro s v hres
    by_cases h1 : s.length = 1
    · exact h1
    · exfalso
      by_cases h2 : s.length = 2
      · unfold tsGetItem at hres
        rw [if_neg (by simpa [pyLen] using h1),
          if_pos (by simpa [pyLen] using h2)] at hres
        injection hres with h3
        cases h3
      · unfold tsGetItem at hres
        rw [if_neg (by simpa [pyLen] using h1),
          if_neg (by simpa [pyLen] using h2)] at hres
        cases hres
  · intro f j snaps sn hf hj
    unfold tsGetItem
    rw [if_neg (by simp [pyLen]), if_pos (by simp [pyLen])]
    simp only [hf, hj]

/-- Witness for C10: indexing a series holding only the field "u" with
the empty tuple (length 0) yields `None`, as does the bare multi-character
name "phi". -/
theorem claim_C10_getitem_length_gate_witness :
    tsGetItem [("u", [[(1 : ℚ)]])] (TsKey.tupKey []) = none
    ∧ tsGetItem [("u", [[(1 : ℚ)]])] (TsKey.strKey "phi") = none :=
  ⟨(claim_C10_getitem_length_gate [("u", [[(1 : ℚ)]])] (TsKey.tupKey [])).1
      (by decide) (by decide),
    (claim_C10_getitem_length_gate [("u", [[(1 : ℚ)]])] (TsKey.tupKey [])).2.1⟩

/-! ### `TimeSeries._load_timeseries`

A checkpoint contributes one `(field, dsets)` pair per xml/h5 file found
for it, where `dsets` is the parsed `(time, payload)` list.  The Python
`data` dict of dicts becomes an insertion-ordered association list of
association lists. -/

/-- `sought_fields is None or field in sought_fields`. -/
def soughtOkB (sought : Option (List String)) (field : String) : Bool :=
  match sought with
  | none => true
  | some l => decide (field ∈ l)

/-- The inner `for time, dset_address in dsets: data[field][time] = ...`
loop: dict insertion keyed by time (a repeated time overwrites). -/
def insertDsets {α : Type} (d : List (ℚ × α)) (dsets : List (ℚ × α)) :
    List (ℚ × α) :=
  dsets.foldl (fun d p => dinsert d p.1 p.2) d

/-- Processing one field file: `if field not in data: data[field] = dict()`
followed by the time-keyed inserts. -/
def insertFile {α : Type} (data : List (String × List (ℚ × α)))
    (field : String) (dsets : List (ℚ × α)) : List (String × List (ℚ × α)) :=
  dinsert data field (insertDsets ((dlookup data field).getD []) dsets)

/-- The double discovery loop of `_load_timeseries`: over checkpoints,
then over the field files of each checkpoint, filtered by the sought
fields. -/
def loadData {α : Type} (cps : List (List (String × List (ℚ × α))))
    (sought : Option (List String)) : List (String × List (ℚ × α)) :=
  cps.foldl (fun data cp =>
    cp.foldl (fun data file =>
      if soughtOkB sought file.1 then insertFile data file.1 file.2
      else data) data) []

/-- `sorted(data[key].items())`: Python sorts the `(time, payload)` pairs
lexicographically; since the dict keys (times) are distinct this is a sort
on time. -/
def sortByTime {α : Type} (d : List (ℚ × α)) : List (ℚ × α) :=
  List.insertionSort (fun a b => a.1 ≤ b.1) d

/-- `self.times`: the time axis taken from the first field of the data
dict (`if i == 0: self.times = [tmp[0] for tmp in tmps]`); when no field
was loaded `times` keeps its initial empty value. -/
def timesOf {α : Type} (cps : List (List (String × List (ℚ × α))))
    (sought : Option (List String)) : List ℚ :=
  match loadData cps sought with
  | [] => []
  | (_, d) :: _ => (sortByTime d).map Prod.fst

/-- `self.datasets[key] = [tmp[1] for tmp in tmps]` for every field. -/
def datasetsOf {α : Type} (cps : List (List (String × List (ℚ × α))))
    (sought : Option (List String)) : List (String × List α) :=
  (loadData cps sought).map (fun p => (p.1, (sortByTime p.2).map Prod.snd))

/-- `self.fields = self.datasets.keys()`: the available-fields set. -/
def fieldsOf {α : Type} (cps : List (List (String × List (ℚ × α))))
    (sought : Option (List String)) : List String :=
  (loadData cps sought).map Prod.fst

theorem dinsert_keys_mem {α β : Type} [DecidableEq α] :
    ∀ (d : List (α × β)) (k : α) (v : β) (g : α),
      (g ∈ (dinsert d k v).map Prod.fst ↔ g ∈ d.map Prod.fst ∨ g = k) := by
  intro d k v g
  induction d with
  | nil => simp [dinsert]
  | cons p rest ih =>
    obtain ⟨k0, v0⟩ := p
    simp only [dinsert]
    by_cases hk : k = k0
    · subst hk
      rw [if_pos rfl]
      simp only [List.map_cons, List.mem_cons]
      tauto
    · rw [if_neg hk]
      simp only [List.map_cons, List.mem_cons, ih]
      tauto

theorem insertFile_keys_mem {α : Type} (data : List (String × List (ℚ × α)))
    (field : String) (dsets : List (ℚ × α)) (g : String) :
    g ∈ (insertFile data field dsets).map Prod.fst ↔
      g ∈ data.map Prod.fst ∨ g = field := by
  unfold insertFile
  exact dinsert_keys_mem data field _ g

theorem foldl_cp_keys_mem {α : Type} (sought : Option (List String))
    (g : String) :
    ∀ (cp : List (String × List (ℚ × α)))
      (data : List (String × List (ℚ × α))),
      (g ∈ (cp.foldl (fun data file =>
          if soughtOkB sought file.1 then insertFile data file.1 file.2
          else data) data).map Prod.fst ↔
        g ∈ data.map Prod.fst ∨
          (soughtOkB sought g = true ∧ ∃ e ∈ cp, e.1 = g)) := by
  intro cp
  induction cp with
  | nil => intro data; simp
  | cons file rest ih =>
    intro data
    simp only [List.foldl_cons]
    rw [ih]
    by_cases hok : soughtOkB sought file.1 = true
    · rw [if_pos hok, insertFile_keys_mem]
      constructor
      · intro h
        rcases h with (h | rfl) | h
        · exact Or.inl h
        · exact Or.inr ⟨hok, file, List.mem_cons_self file rest, rfl⟩
        · exact Or.inr ⟨h.1, h.2.choose,
            List.mem_cons_of_mem file h.2.choose_spec.1, h.2.choose_spec.2⟩
      · intro h
        rcases h with h | ⟨hokg, e, he, rfl⟩
        · exact Or.inl (Or.inl h)
        · rcases List.mem_cons.1 he with rfl | hmem
          · exact Or.inl (Or.inr rfl)
          · exact Or.inr ⟨hokg, e, hmem, rfl⟩
    · rw [if_neg hok]
      constructor
      · intro h
        rcases h with h | ⟨hokg, e, he, rfl⟩
        · exact Or.inl h
        · exact Or.inr ⟨hokg, e, List.mem_cons_of_mem file he, rfl⟩
      · intro h
        rcases h with h | ⟨hokg, e, he, hg⟩
        · exact Or.inl h
        · rcases List.mem_cons.1 he with rfl | hmem
          · subst hg; exact absurd hokg hok
          · exact Or.inr ⟨hokg, e, hmem, hg⟩

/-- Claim C8: a sought field absent from every checkpoint is silently
excluded (the loader is a total function, no exception path exists for
this case), and the available-fields set holds exactly the fields found
in at least one checkpoint that match the request. -/
theorem claim_C8_available_fields_exact {α : Type}
    (cps : List (List (String × List (ℚ × α))))
    (sought : Option (List String)) (g : String) :
    (g ∈ fieldsOf cps sought ↔
      soughtOkB sought g = true ∧ ∃ cp ∈ cps, ∃ e ∈ cp, e.1 = g)
    ∧ ((∀ cp ∈ cps, ∀ e ∈ cp, e.1 ≠ g) → g ∉ fieldsOf cps sought) := by
  have hmain : ∀ (l : List (List (String × List (ℚ × α))))
      (data : List (String × List (ℚ × α))),
      (g ∈ (l.foldl (fun data cp =>
          cp.foldl (fun data file =>
            if soughtOkB sought file.1 then insertFile data file.1 file.2
            else data) data) data).map Prod.fst ↔
        g ∈ data.map Prod.fst ∨
          (soughtOkB sought g = true ∧ ∃ cp ∈ l, ∃ e ∈ cp, e.1 = g)) := by
    intro l
    induction l with
    | nil => intro data; simp
    | cons cp rest ih =>
      intro data
      simp only [List.foldl_cons]
      rw [ih, foldl_cp_keys_mem]
      constructor
      · intro h
        rcases h with (h | ⟨hok, e, he, hg⟩) | ⟨hok, c, hc, e, he, hg⟩
        · exact Or.inl h
        · exact Or.inr ⟨hok, cp, List.mem_cons_self cp rest, e, he, hg⟩
        · exact Or.inr ⟨hok, c, List.mem_cons_of_mem cp hc, e, he, hg⟩
      · intro h
        rcases h with h | ⟨hok, c, hc, e, he, hg⟩
        · exact Or.inl (Or.inl h)
        · rcases List.mem_cons.1 hc with rfl | hmem
          · exact Or.inl (Or.inr ⟨hok, e, he, hg⟩)
          · exact Or.inr ⟨hok, c, hmem, e, he, hg⟩
  constructor
  · have := hmain cps []
    simpa [fieldsOf, loadData] using this
  · intro habs hmem
    have h1 := ((hmain cps []).1 (by simpa [fieldsOf, loadData] using hmem))
    rcases h1 with h1 | ⟨_, c, hc, e, he, hg⟩
    · simp at h1
    · exact absurd hg (habs c hc e he)

/-- Witness for C8: field "p" appears in no checkpoint of a two-checkpoint
archive, so it is excluded; field "phi" appears and is kept. -/
theorem claim_C8_available_fields_exact_witness :
    ("p" ∉ fieldsOf [[("phi", [((0 : ℚ), (1 : ℚ))])], []] none)
    ∧ ("phi" ∈ fieldsOf [[("phi", [((0 : ℚ), (1 : ℚ))])], []] none) :=
  ⟨(claim_C8_available_fields_exact [[("phi", [((0 : ℚ), (1 : ℚ))])], []]
      none "p").2 (by decide),
    (claim_C8_available_fields_exact [[("phi", [((0 : ℚ), (1 : ℚ))])], []]
      none "phi").1.2 ⟨rfl, [("phi", [((0 : ℚ), (1 : ℚ))])], by simp, by simp⟩⟩

instance instIsTotalFstLe {α : Type} :
    IsTotal (ℚ × α) (fun a b => a.1 ≤ b.1) :=
  ⟨fun a b => le_total a.1 b.1⟩

instance instIsTransFstLe {α : Type} :
    IsTrans (ℚ × α) (fun a b => a.1 ≤ b.1) :=
  ⟨fun _ _ _ h1 h2 => le_trans h1 h2⟩

theorem sortByTime_sorted {α : Type} (d : List (ℚ × α)) :
    List.Sorted (fun a b => a.1 ≤ b.1) (sortByTime d) :=
  List.sorted_insertionSort _ d

theorem dlookup_map_val {α β γ : Type} [DecidableEq α] (g : β → γ) :
    ∀ (l : List (α × β)) (k : α),
      dlookup (l.map (fun p => (p.1, g p.2))) k = (dlookup l k).map g := by
  intro l
  induction l with
  | nil => intro k; rfl
  | cons p rest ih =>
    intro k
    obtain ⟨k0, v0⟩ := p
    simp only [List.map_cons, dlookup]
    by_cases hk : k = k0
    · rw [if_pos hk, if_pos hk]
      rfl
    · rw [if_neg hk, if_neg hk, ih]

/-- Claim C6: every field's snapshot sequence is the sort of all
checkpoints' `(time, snapshot)` entries on time, giving a monotonically
increasing axis, and the shared time axis equals the sorted times of the
first successfully loaded field. -/
theorem claim_C6_time_axis_from_first_field {α : Type}
    (cps : List (List (String × List (ℚ × α))))
    (sought : Option (List String)) (f0 : String) (d0 : List (ℚ × α))
    (hhead : (loadData cps sought).head? = some (f0, d0)) :
    timesOf cps sought = (sortByTime d0).map Prod.fst
    ∧ List.Sorted (· ≤ ·) (timesOf cps sought)
    ∧ (∀ (f : String) (d : List (ℚ × α)),
        dlookup (loadData cps sought) f = some d →
          dlookup (datasetsOf cps sought) f
              = some ((sortByTime d).map Prod.snd)
            ∧ List.Sorted (fun a b => a.1 ≤ b.1) (sortByTime d)) := by
  have h1 : timesOf cps sought = (sortByTime d0).map Prod.fst := by
    cases hld : loadData cps sought with
    | nil => rw [hld] at hhead; cases hhead
    | cons p rest =>
      rw [hld] at hhead
      simp only [List.head?_cons] at hhead
      cases hhead
      simp only [timesOf, hld]
  refine ⟨h1, ?_, ?_⟩
  · rw [h1]
    exact List.Pairwise.map Prod.fst (fun a b h => h) (sortByTime_sorted d0)
  · intro f d hf
    refine ⟨?_, sortByTime_sorted d⟩
    unfold datasetsOf
    rw [dlookup_map_val (fun d => (sortByTime d).map Prod.snd)
      (loadData cps sought) f, hf]
    rfl

/-- Witness for C6: one checkpoint providing field "phi" with times given
out of order (1 before 0); the axis is the sorted times of that first
field. -/
theorem claim_C6_time_axis_from_first_field_witness :
    timesOf [[("phi", [((1 : ℚ), (7 : ℚ)), ((0 : ℚ), (5 : ℚ))])]] none
      = (sortByTime [((1 : ℚ), (7 : ℚ)), ((0 : ℚ), (5 : ℚ))]).map Prod.fst
    ∧ List.Sorted (· ≤ ·)
      (timesOf [[("phi", [((1 : ℚ), (7 : ℚ)), ((0 : ℚ), (5 : ℚ))])]] none) :=
  ⟨(claim_C6_time_axis_from_first_field
      [[("phi", [((1 : ℚ), (7 : ℚ)), ((0 : ℚ), (5 : ℚ))])]] none "phi"
      [((1 : ℚ), (7 : ℚ)), ((0 : ℚ), (5 : ℚ))] rfl).1,
    (claim_C6_time_axis_from_first_field
      [[("phi", [((1 : ℚ), (7 : ℚ)), ((0 : ℚ), (5 : ℚ))])]] none "phi"
      [((1 : ℚ), (7 : ℚ)), ((0 : ℚ), (5 : ℚ))] rfl).2.1⟩

/-! ### `analysis_scripts/flux_in_time.py`: boundary registry -/

/-- A boundary predicate object: a problem-supplied named predicate, the
periodic-pairing predicate, or an axis-aligned `CrossSection(x0, dim)`. -/
inductive Bdry where
  | pred (tag : Nat)
  | periodicPred
  | cross (x0 : ℚ) (dim : Nat)
deriving DecidableEq

/-- `CrossSection(x0, dim)` constructor. -/
def CrossSection (x0 : ℚ) (dim : Nat) : Bdry := Bdry.cross x0 dim

/-- Column `d` of the node array (`nodes[:, d]`). -/
def colVals (nodes : List (List ℚ)) (d : Nat) : List ℚ :=
  nodes.map (fun row => row.getD d 0)

/-- `nodes[:, d].min()` (0 on an empty array, which numpy would reject). -/
def colMin (nodes : List (List ℚ)) (d : Nat) : ℚ :=
  match colVals nodes d with
  | [] => 0
  | a :: rest => rest.foldl min a

/-- `nodes[:, d].max()` (0 on an empty array, which numpy would reject). -/
def colMax (nodes : List (List ℚ)) (d : Nat) : ℚ :=
  match colVals nodes d with
  | [] => 0
  | a :: rest => rest.foldl max a

/-- The named-boundary list after `boundaries.insert(0, ("periodic",
[pbc]))` when a periodic predicate is supplied. -/
def pass1 (boundaries : List (String × List Bdry)) (pbc : Option Bdry) :
    List (String × List Bdry) :=
  match pbc with
  | some p => ("periodic", [p]) :: boundaries
  | none => boundaries

/-- The `extra_boundaries` list: requested axis-aligned cross-sections,
appended in the fixed source order left, right, top, bottom, positioned at
the bounding box of the loaded nodes. -/
def extraBoundaries (extra_keys : List String) (nodes : List (List ℚ)) :
    List (String × List Bdry) :=
  (if "left" ∈ extra_keys then
    [("extra_left", [CrossSection (colMin nodes 0) 0])] else [])
  ++ (if "right" ∈ extra_keys then
    [("extra_right", [CrossSection (colMax nodes 0) 0])] else [])
  ++ (if "top" ∈ extra_keys then
    [("extra_top", [CrossSection (colMax nodes 1) 1])] else [])
  ++ (if "bottom" ∈ extra_keys then
    [("extra_bottom", [CrossSection (colMin nodes 1) 1])] else [])

/-- `get_boundaries_list(boundaries, pbc, extra_boundaries_keys, nodes)`:
`boundaries_list = [boundaries]`, with the extra-boundaries pass appended
only when non-empty (`if len(extra_boundaries) > 0`). -/
def get_boundaries_list (boundaries : List (String × List Bdry))
    (pbc : Option Bdry) (extra_keys : List String)
    (nodes : List (List ℚ)) : List (List (String × List Bdry)) :=
  if 0 < (extraBoundaries extra_keys nodes).length then
    [pass1 boundaries pbc, extraBoundaries extra_keys nodes]
  else
    [pass1 boundaries pbc]

theorem extraBoundaries_pos (extra_keys : List String)
    (nodes : List (List ℚ)) :
    0 < (extraBoundaries extra_keys nodes).length ↔
      ("left" ∈ extra_keys ∨ "right" ∈ extra_keys ∨
        "top" ∈ extra_keys ∨ "bottom" ∈ extra_keys) := by
  by_cases h1 : "left" ∈ extra_keys <;>
    by_cases h2 : "right" ∈ extra_keys <;>
      by_cases h3 : "top" ∈ extra_keys <;>
        by_cases h4 : "bottom" ∈ extra_keys <;>
          simp [extraBoundaries, h1, h2, h3, h4]

/-- The trace of `boundary.mark(subdomain, i+1)` /
`boundary_to_mark[name] = (i+1, k)` operations performed by
`get_boundary_to_mark`: one `(pass_index, name, marker)` triple per named
boundary, marker `i+1` for the `i`-th entry of pass `k`. -/
def markCalls (bl : List (List (String × List Bdry))) :
    List (Nat × String × Nat) :=
  bl.enum.flatMap (fun kp =>
    kp.2.enum.map (fun ip => (kp.1, ip.2.1, ip.1 + 1)))

/-- `get_boundary_to_mark`'s returned dict: `name -> (marker, pass)`,
built by dict insertion along the trace. -/
def get_boundary_to_mark (bl : List (List (String × List Bdry))) :
    List (String × (Nat × Nat)) :=
  (markCalls bl).foldl (fun d c => dinsert d c.2.1 (c.2.2, c.1)) []

theorem markCalls_mem (bl : List (List (String × List Bdry)))
    (k : Nat) (name : String) (m : Nat) :
    (k, name, m) ∈ markCalls bl ↔
      ∃ pass : List (String × List Bdry), bl[k]? = some pass ∧
        ∃ (i : Nat) (blist : List Bdry),
          pass[i]? = some (name, blist) ∧ m = i + 1 := by
  unfold markCalls
  rw [List.mem_flatMap]
  constructor
  · rintro ⟨kp, hkp, hmem⟩
    rcases List.mem_map.1 hmem with ⟨ip, hip, heq⟩
    obtain ⟨hk, hname, hm⟩ : kp.1 = k ∧ ip.2.1 = name ∧ ip.1 + 1 = m := by
      refine ⟨congrArg Prod.fst heq, ?_, ?_⟩
      · exact congrArg (fun c => c.2.1) heq
      · exact congrArg (fun c => c.2.2) heq
    refine ⟨kp.2, ?_, ip.1, ip.2.2, ?_, hm.symm⟩
    · rw [← hk]
      exact (List.mk_mem_enum_iff_getElem? (l := bl)).1 (by
        have : (kp.1, kp.2) = kp := rfl
        rw [this]
        exact hkp)
    · have h2 := (List.mk_mem_enum_iff_getElem? (l := kp.2)).1 (by
        have : (ip.1, ip.2) = ip := rfl
        rw [this]
        exact hip)
      rw [← hname]
      exact h2
  · rintro ⟨pass, hpass, i, blist, hi, rfl⟩
    refine ⟨(k, pass), ?_, ?_⟩
    · exact (List.mk_mem_enum_iff_getElem? (l := bl)).2 hpass
    · refine List.mem_map.2 ⟨(i, (name, blist)), ?_, rfl⟩
      exact (List.mk_mem_enum_iff_getElem? (l := pass)).2 hi

/-- Claim C4: at most two marking passes; pass 1 is the named exterior
boundaries with the periodic predicate (if requested) in the first slot;
pass 2 exists iff a cross-section was requested; and within each pass
marker `m` is carried by the boundary at supplied position `m - 1`, so
markers are the unique positive integers `1..len` assigned sequentially in
supplied order. -/
theorem claim_C4_boundary_marking_passes
    (boundaries : List (String × List Bdry)) (pbc : Option Bdry)
    (extra_keys : List String) (nodes : List (List ℚ)) :
    (get_boundaries_list boundaries pbc extra_keys nodes).length ≤ 2
    ∧ ((get_boundaries_list boundaries pbc extra_keys nodes)[0]?
        = some (pass1 boundaries pbc))
    ∧ (∀ p, pbc = some p →
        pass1 boundaries pbc = ("periodic", [p]) :: boundaries)
    ∧ (pbc = none → pass1 boundaries pbc = boundaries)
    ∧ ((get_boundaries_list boundaries pbc extra_keys nodes).length = 2 ↔
        ("left" ∈ extra_keys ∨ "right" ∈ extra_keys ∨
          "top" ∈ extra_keys ∨ "bottom" ∈ extra_keys))
    ∧ (∀ (k : Nat) (name : String) (m : Nat),
        (k, name, m) ∈ markCalls (get_boundaries_list boundaries pbc
          extra_keys nodes) ↔
        ∃ pass : List (String × List Bdry),
          (get_boundaries_list boundaries pbc extra_keys nodes)[k]?
            = some pass ∧
          ∃ (i : Nat) (blist : List Bdry),
            pass[i]? = some (name, blist) ∧ m = i + 1)
    ∧ (∀ (k : Nat) (name1 name2 : String) (m : Nat),
        (k, name1, m) ∈ markCalls (get_boundaries_list boundaries pbc
          extra_keys nodes) →
        (k, name2, m) ∈ markCalls (get_boundaries_list boundaries pbc
          extra_keys nodes) →
        1 ≤ m ∧ name1 = name2)
    ∧ (∀ (k : Nat) (pass : List (String × List Bdry)),
        (get_boundaries_list boundaries pbc extra_keys nodes)[k]?
          = some pass →
        ∀ m : Nat, (∃ name, (k, name, m) ∈ markCalls
            (get_boundaries_list boundaries pbc extra_keys nodes)) ↔
          (1 ≤ m ∧ m ≤ pass.length)) := by
  refine ⟨?_, ?_, ?_, ?_, ?_, ?_, ?_, ?_⟩
  · unfold get_boundaries_list
    split <;> simp
  · unfold get_boundaries_list
    split <;> rfl
  · intro p hp
    simp [pass1, hp]
  · intro hp
    simp [pass1, hp]
  · unfold get_boundaries_list
    split
    next hpos =>
      simp only [List.length_cons, List.length_singleton, List.length_nil]
      exact iff_of_true trivial ((extraBoundaries_pos extra_keys nodes).1 hpos)
    next hpos =>
      constructor
      · intro h
        simp at h
      · intro h
        exact absurd ((extraBoundaries_pos extra_keys nodes).2 h) hpos
  · intro k name m
    exact markCalls_mem (get_boundaries_list boundaries pbc extra_keys nodes)
      k name m
  · intro k name1 name2 m h1 h2
    rcases (markCalls_mem _ k name1 m).1 h1 with
      ⟨pass, hpass, i1, blist1, hi1, hm1⟩
    rcases (markCalls_mem _ k name2 m).1 h2 with
      ⟨pass2, hpass2, i2, blist2, hi2, hm2⟩
    rw [hpass] at hpass2
    have hpp := Option.some.inj hpass2
    rw [← hpp] at hi2
    have hii : i1 = i2 := by omega
    subst hii
    rw [hi1] at hi2
    refine ⟨by omega, ?_⟩
    exact congrArg Prod.fst (Option.some.inj hi2)
  · intro k pass hpass m
    constructor
    · rintro ⟨name, hmem⟩
      rcases (markCalls_mem _ k name m).1 hmem with
        ⟨pass2, hpass2, i, blist, hi, rfl⟩
      rw [hpass] at hpass2
      have hpp := Option.some.inj hpass2
      rw [← hpp] at hi
      have : i < pass.length := (List.getElem?_eq_some.1 hi).1
      omega
    · rintro ⟨h1, h2⟩
      have hi : m - 1 < pass.length := by omega
      have hget : pass[m - 1]? = some (pass.get ⟨m - 1, hi⟩) :=
        List.getElem?_eq_some.2 ⟨hi, rfl⟩
      refine ⟨(pass.get ⟨m - 1, hi⟩).1, (markCalls_mem _ k _ m).2
        ⟨pass, hpass, m - 1, (pass.get ⟨m - 1, hi⟩).2, ?_, by omega⟩⟩
      rw [hget]

/-- Witness for C4: one named boundary, a periodic predicate, and the
"left" cross-section request yield two passes with the periodic boundary
in the first slot of pass 1. -/
theorem claim_C4_boundary_marking_passes_witness :
    (get_boundaries_list [("wall", [Bdry.pred 0])] (some Bdry.periodicPred)
      ["left"] [[(0 : ℚ), 0], [1, 1]]).length ≤ 2
    ∧ pass1 [("wall", [Bdry.pred 0])] (some Bdry.periodicPred)
        = ("periodic", [Bdry.periodicPred]) :: [("wall", [Bdry.pred 0])] :=
  ⟨(claim_C4_boundary_marking_passes [("wall", [Bdry.pred 0])]
      (some Bdry.periodicPred) ["left"] [[(0 : ℚ), 0], [1, 1]]).1,
    (claim_C4_boundary_marking_passes [("wall", [Bdry.pred 0])]
      (some Bdry.periodicPred) ["left"] [[(0 : ℚ), 0], [1, 1]]).2.2.1
      Bdry.periodicPred rfl⟩

/-! ### `geometry_in_time`

`lengths`, `areas` and `areas_x[d]` are `np.zeros(len(ts))` arrays; the
loop `for step in range(rank, len(ts), size)` fills only the calling
rank's steps; rank 0 then writes
`zip(ts.times, lengths, areas, areas_x[0]/areas, areas_x[1]/areas)` from
its own arrays — the source performs no inter-rank gather or reduction
before the write.  The per-step quantities themselves (polyline length,
assembled area and first moments) are abstracted as input functions. -/

/-- `range(rank, len(ts), size)` for `size >= 1`. -/
def rankSteps (r R N : Nat) : List Nat :=
  (List.range N).filter (fun s => decide (r ≤ s ∧ (s - r) % R = 0))

/-- A `np.zeros(N)` array after the assignments `arr[step] = compute step`
for each owned step. -/
def fillSteps (steps : List Nat) (compute : Nat → ℚ) : Nat → ℚ :=
  steps.foldl (fun a st => Function.update a st (compute st)) (fun _ => 0)

/-- The local accumulator array of rank `r` in `geometry_in_time`. -/
def rankArray (r R N : Nat) (compute : Nat → ℚ) : Nat → ℚ :=
  fillSteps (rankSteps r R N) compute

/-- The `time_data.dat` table written by rank 0 (`if rank == 0:
np.savetxt(..., zip(ts.times, lengths, areas, areas_x[0]/areas,
areas_x[1]/areas))`), built from rank 0's local arrays only. -/
def geometryTimeTable (N R : Nat) (times compLen compArea : Nat → ℚ)
    (compAreaX : Nat → Nat → ℚ) : List (List ℚ) :=
  (List.range N).map (fun s =>
    [times s,
      rankArray 0 R N compLen s,
      rankArray 0 R N compArea s,
      rankArray 0 R N (compAreaX 0) s / rankArray 0 R N compArea s,
      rankArray 0 R N (compAreaX 1) s / rankArray 0 R N compArea s])

theorem foldl_update_eq (compute : Nat → ℚ) :
    ∀ (steps : List Nat) (arr : Nat → ℚ) (s : Nat),
      (steps.foldl (fun a st => Function.update a st (compute st)) arr) s
        = if s ∈ steps then compute s else arr s := by
  intro steps
  induction steps with
  | nil => intro arr s; simp
  | cons st rest ih =>
    intro arr s
    simp only [List.foldl_cons]
    rw [ih]
    by_cases hmem : s ∈ rest
    · simp [hmem]
    · by_cases hs : s = st
      · subst hs
        simp [hmem, Function.update_same]
      · simp [hmem, hs, Function.update_noteq hs]

theorem fillSteps_eq (steps : List Nat) (compute : Nat → ℚ) (s : Nat) :
    fillSteps steps compute s = if s ∈ steps then compute s else 0 :=
  foldl_update_eq compute steps (fun _ => 0) s

theorem rankSteps_mem (r R N s : Nat) :
    s ∈ rankSteps r R N ↔ s < N ∧ r ≤ s ∧ (s - r) % R = 0 := by
  simp [rankSteps, List.mem_filter, List.mem_range]

theorem rankSteps_zero_mem (R N s : Nat) :
    s ∈ rankSteps 0 R N ↔ s < N ∧ s % R = 0 := by
  simp [rankSteps_mem]

/-- Counterexample to C1 as stated: with 2 ranks and 2 steps, step 1 is
owned by rank 1, and the table rank 0 writes carries 0 in the
interface-length cell of step 1 although the computed length there is 2 —
no gather happens before the write. -/
theorem claim_C1_gather_counterexample :
    ((geometryTimeTable 2 2 (fun s => (s : ℚ)) (fun s => (s : ℚ) + 1)
        (fun s => (s : ℚ) + 1) (fun _ s => (s : ℚ)))[1]?.bind
      (fun row => row[1]?)) = some 0
    ∧ ((fun s => (s : ℚ) + 1) 1 = 2)
    ∧ (0 : ℚ) ≠ 2 := by
  refine ⟨by decide, by norm_num, by norm_num⟩

/-- Claim C1 (amended): the round-robin step distribution is a true
partition (each step owned by exactly one rank), but no gather is
performed: the written table holds the computed length/area (and the
derived centroid) only for rank 0's own steps (`step % R == 0`, hence all
steps only when `R = 1`), and zeros elsewhere. -/
theorem claim_C1_amended_no_gather (N R : Nat)
    (times compLen compArea : Nat → ℚ) (compAreaX : Nat → Nat → ℚ)
    (hR : 1 ≤ R) :
    (∀ s, s < N →
      (geometryTimeTable N R times compLen compArea compAreaX)[s]?
        = some [times s,
            (if s % R = 0 then compLen s else 0),
            (if s % R = 0 then compArea s else 0),
            (if s % R = 0 then compAreaX 0 s else 0)
              / (if s % R = 0 then compArea s else 0),
            (if s % R = 0 then compAreaX 1 s else 0)
              / (if s % R = 0 then compArea s else 0)])
    ∧ (∀ (r1 r2 s : Nat), r1 < R → r2 < R → s ∈ rankSteps r1 R N →
        s ∈ rankSteps r2 R N → r1 = r2)
    ∧ (∀ s, s < N → ∃ r, r < R ∧ s ∈ rankSteps r R N) := by
  have hrank : ∀ (r s : Nat), r < R → s ∈ rankSteps r R N → r = s % R := by
    intro r s hrR hmem
    rcases (rankSteps_mem r R N s).1 hmem with ⟨_, hrs, hmod⟩
    rcases Nat.dvd_of_mod_eq_zero hmod with ⟨k, hk⟩
    have hs : s = R * k + r := by omega
    rw [hs, Nat.mul_add_mod]
    exact (Nat.mod_eq_of_lt hrR).symm
  refine ⟨?_, ?_, ?_⟩
  · intro s hs
    have hmap : (geometryTimeTable N R times compLen compArea compAreaX)[s]?
        = some [times s,
            rankArray 0 R N compLen s,
            rankArray 0 R N compArea s,
            rankArray 0 R N (compAreaX 0) s / rankArray 0 R N compArea s,
            rankArray 0 R N (compAreaX 1) s / rankArray 0 R N compArea s] := by
      unfold geometryTimeTable
      rw [List.getElem?_map]
      simp [List.getElem?_range, hs]
    rw [hmap]
    have harr : ∀ compute : Nat → ℚ,
        rankArray 0 R N compute s = if s % R = 0 then compute s else 0 := by
      intro compute
      unfold rankArray
      rw [fillSteps_eq]
      by_cases hmod : s % R = 0
      · rw [if_pos ((rankSteps_zero_mem R N s).2 ⟨hs, hmod⟩), if_pos hmod]
      · rw [if_neg (fun hcon =>
          hmod ((rankSteps_zero_mem R N s).1 hcon).2), if_neg hmod]
    rw [harr, harr, harr, harr]
  · intro r1 r2 s h1 h2 hm1 hm2
    rw [hrank r1 s h1 hm1, hrank r2 s h2 hm2]
  · intro s hs
    refine ⟨s % R, Nat.mod_lt s (by omega), ?_⟩
    rw [rankSteps_mem]
    refine ⟨hs, Nat.mod_le s R, ?_⟩
    have hdm := Nat.div_add_mod s R
    have hsub : s - s % R = R * (s / R) := by omega
    rw [hsub, Nat.mul_mod_right]

/-- Witness for C1 (amended): with 2 ranks and 2 steps, the written row
for step 1 is all zeros past the time column, and steps 0 and 1 are owned
by ranks 0 and 1 respectively. -/
theorem claim_C1_amended_no_gather_witness :
    (geometryTimeTable 2 2 (fun s => (s : ℚ)) (fun s => (s : ℚ) + 1)
        (fun s => (s : ℚ) + 1) (fun _ s => (s : ℚ)))[1]?
      = some [(1 : ℚ), 0, 0, 0, 0] := by
  have h := (claim_C1_amended_no_gather 2 2 (fun s => (s : ℚ))
    (fun s => (s : ℚ) + 1) (fun s => (s : ℚ) + 1) (fun _ s => (s : ℚ))
    (by norm_num)).1 1 (by norm_num)
  simpa using h

/-! ### `flux_in_time.method`: output tables

`savedata[boundary] = np.array(list(zip(steps, t, *[data[b][fn] for fn in
sorted(fluxes.keys())])))` is written with `np.savetxt` under the header
`"Step\tTime\t" + "\t".join(flux_keys)`, one file per boundary.  A
delimited table is modelled as its list of rows of cell strings; the step
cell carries the decimal numeral of the step index.  The iterated `steps`
come from `get_steps` (imported by the script but defined outside this
tree), so they are an arbitrary input list here. -/

/-- The decimal digit character of `d < 10`. -/
def digitChar (d : Nat) : Char := Char.ofNat (48 + d)

/-- Numeric value of a decimal digit character. -/
def charVal (c : Char) : Nat := c.toNat - 48

theorem charVal_digitChar : ∀ d, d < 10 → charVal (digitChar d) = d := by
  decide

/-- Decimal digits of a natural number, most significant first. -/
def natDigits (n : Nat) : List Nat :=
  if h : n < 10 then [n]
  else
    have : n / 10 < n := Nat.div_lt_self (by omega) (by omega)
    natDigits (n / 10) ++ [n % 10]

/-- Value of a digit list read most-significant-first. -/
def digitsVal (ds : List Nat) : Nat := ds.foldl (fun a d => a * 10 + d) 0

theorem digitsVal_append_single (xs : List Nat) (d : Nat) :
    digitsVal (xs ++ [d]) = digitsVal xs * 10 + d := by
  unfold digitsVal
  rw [List.foldl_append]
  rfl

theorem digitsVal_natDigits : ∀ n, digitsVal (natDigits n) = n := by
  intro n
  induction n using Nat.strong_induction_on with
  | _ n ih =>
    by_cases h : n < 10
    · unfold natDigits
      rw [dif_pos h]
      simp [digitsVal]
    · unfold natDigits
      rw [dif_neg h]
      rw [digitsVal_append_single,
        ih (n / 10) (Nat.div_lt_self (by omega) (by omega))]
      have := Nat.div_add_mod n 10
      omega

theorem natDigits_lt : ∀ n, ∀ d ∈ natDigits n, d < 10 := by
  intro n
  induction n using Nat.strong_induction_on with
  | _ n ih =>
    intro d hd
    by_cases h : n < 10
    · unfold natDigits at hd
      rw [dif_pos h] at hd
      simp only [List.mem_singleton] at hd
      omega
    · unfold natDigits at hd
      rw [dif_neg h] at hd
      rcases List.mem_append.1 hd with hmem | hmem
      · exact ih (n / 10) (Nat.div_lt_self (by omega) (by omega)) d hmem
      · simp only [List.mem_singleton] at hmem
        subst hmem
        exact Nat.mod_lt n (by omega)

/-- The decimal numeral written for a step index. -/
def natRepr (n : Nat) : String := String.mk ((natDigits n).map digitChar)

/-- Re-parsing a numeric cell of a written table. -/
def parseNat (s : String) : Nat := digitsVal (s.data.map charVal)

theorem parseNat_natRepr (n : Nat) : parseNat (natRepr n) = n := by
  unfold parseNat natRepr
  have hdata : (String.mk ((natDigits n).map digitChar)).data
      = (natDigits n).map digitChar := rfl
  rw [hdata, List.map_map]
  have hmap : (natDigits n).map (charVal ∘ digitChar) = natDigits n := by
    have h1 : (natDigits n).map (charVal ∘ digitChar)
        = (natDigits n).map id := by
      apply List.map_congr_left
      intro d hd
      exact charVal_digitChar d (natDigits_lt n d hd)
    rw [h1, List.map_id]
  rw [hmap, digitsVal_natDigits]

/-- The cell written for a time or flux value (`np.savetxt` float
formatting abstracted to a rendering of the exact value). -/
def ratCell (q : ℚ) : String := toString q

/-- `sorted(...)` on strings (Python ascending sort). -/
def pySorted (l : List String) : List String :=
  List.insertionSort (fun a b => a ≤ b) l

/-- The header row `"Step\tTime\t" + "\t".join(flux_keys)` with
`flux_keys = sorted(fluxes.keys())`. -/
def fluxHeader (fluxNames : List String) : List String :=
  "Step" :: "Time" :: pySorted fluxNames

/-- One boundary's table: row `i` is
`(steps[i], t[i], data[boundary][fn][i] for fn in flux_keys)`. -/
def fluxTableFor (steps : List Nat) (times : Nat → ℚ)
    (vals : String → Nat → ℚ) (fluxNames : List String) :
    List (List String) :=
  steps.enum.map (fun ip =>
    natRepr ip.2 :: ratCell (times ip.1)
      :: (pySorted fluxNames).map (fun fn => ratCell (vals fn ip.1)))

/-- The per-boundary output files of `flux_in_time.method`: one table per
registered boundary, named by the boundary. -/
def fluxTables (boundaries : List String) (steps : List Nat)
    (times : Nat → ℚ) (data : String → String → Nat → ℚ)
    (fluxNames : List String) : List (String × List (List String)) :=
  boundaries.map (fun b => (b, fluxTableFor steps times (data b) fluxNames))

/-- Claim C5: one table per registered boundary; columns are the step
index, the time, then one column per flux name in sorted (lexicographic)
order; one row per iterated step; and re-parsing the step cells of a
written table reproduces the iterated step sequence exactly and in
order. -/
theorem claim_C5_flux_table_roundtrip
    (boundaries : List String) (steps : List Nat) (times : Nat → ℚ)
    (data : String → String → Nat → ℚ) (fluxNames : List String) :
    (fluxTables boundaries steps times data fluxNames).map Prod.fst
      = boundaries
    ∧ fluxHeader fluxNames = "Step" :: "Time" :: pySorted fluxNames
    ∧ List.Sorted (fun a b : String => a ≤ b) (pySorted fluxNames)
    ∧ (pySorted fluxNames).Perm fluxNames
    ∧ (∀ (b : String) (tbl : List (List String)),
        (b, tbl) ∈ fluxTables boundaries steps times data fluxNames →
        tbl.length = steps.length
        ∧ (∀ (i st : Nat), steps[i]? = some st →
            tbl[i]? = some (natRepr st :: ratCell (times i)
              :: (pySorted fluxNames).map (fun fn => ratCell (data b fn i))))
        ∧ tbl.map (fun row => parseNat (row.headD "")) = steps) := by
  refine ⟨?_, rfl, ?_, ?_, ?_⟩
  · unfold fluxTables
    rw [List.map_map]
    have hcomp : (Prod.fst ∘ fun b =>
        (b, fluxTableFor steps times (data b) fluxNames)) = id := rfl
    rw [hcomp, List.map_id]
  · exact List.sorted_insertionSort _ fluxNames
  · exact List.perm_insertionSort _ fluxNames
  · intro b tbl hmem
    rcases List.mem_map.1 hmem with ⟨b0, hb0, heq⟩
    cases heq
    refine ⟨by simp [fluxTableFor], ?_, ?_⟩
    · intro i st hist
      unfold fluxTableFor
      rw [List.getElem?_map, List.getElem?_enum, hist]
      rfl
    · unfold fluxTableFor
      rw [List.map_map]
      have hfinal := List.enum_map_snd steps
      nth_rewrite 2 [← hfinal]
      apply List.map_congr_left
      intro ip _
      exact parseNat_natRepr ip.2

/-- Witness for C5: steps iterated in the order `[3, 1]` are reproduced
exactly by re-parsing the written step cells, and the flux names
`["b", "a"]` appear in sorted order. -/
theorem claim_C5_flux_table_roundtrip_witness :
    (fluxTableFor [3, 1] (fun i => (i : ℚ)) ((fun _ _ _ => 0) "left")
        ["b", "a"]).map (fun row => parseNat (row.headD "")) = [3, 1]
    ∧ List.Sorted (fun a b : String => a ≤ b) (pySorted ["b", "a"]) :=
  ⟨((claim_C5_flux_table_roundtrip ["left"] [3, 1] (fun i => (i : ℚ))
      (fun _ _ _ => 0) ["b", "a"]).2.2.2.2 "left" _
      (by simp [fluxTables])).2.2,
    (claim_C5_flux_table_roundtrip ["left"] [3, 1] (fun i => (i : ℚ))
      (fun _ _ _ => 0) ["b", "a"]).2.2.1⟩

end Bernaise
